import Mathlib

/-!
Verification of the proseg transcript-ingestion and sampler-driver code
(`src/main.rs`, `src/sampler/transcripts.rs`) against its specification.

Modelling conventions:
* Rust `f32` values are exact rationals in the source paths we verify
  (the reader parses, compares and stores coordinates without arithmetic),
  so coordinate and quality fields are `ℚ`.  Geometric computations that
  genuinely use `sqrt`/division (`estimate_full_area`, the chunk-size
  search) are modelled over `ℝ` with exact real arithmetic.
* Rust `u32` is `ℕ` (the reader only casts non-negative `i32` values, which
  cannot overflow `u32`); `i32` parse results are `Int` together with the
  range fact `cell_id < 2^31` where it matters.
* The CSV plumbing (header lookup, field parsing) is abstracted to a list
  of already-parsed `Row`s; a row whose fields failed to parse makes the
  Rust code panic before producing any output, so rows are well-formed by
  construction here.
-/

namespace Proseg

/-- `BACKGROUND_CELL: CellIndex = u32::MAX`, the sentinel for unassigned
transcripts (`transcripts.rs` line 8). -/
def BACKGROUND_CELL : ℕ := 2 ^ 32 - 1

/-- The `Transcript` record of `transcripts.rs` lines 10–16. -/
structure Transcript where
  x : ℚ
  y : ℚ
  z : ℚ
  gene : ℕ
deriving DecidableEq, Repr

/-- One parsed CSV data row: the fields the reader extracts from the
columns `transcript_column`, `x/y/z_column`, `cell_id`,
`overlaps_nucleus` and `qv`. -/
structure Row where
  name : String
  x : ℚ
  y : ℚ
  z : ℚ
  cell_id : Int
  overlaps_nucleus : Int
  qv : ℚ
deriving DecidableEq, Repr

/-- The initial assignment of one retained row (`transcripts.rs` lines
130–136 / 208–215): the cell id cast to `u32` when `cell_id >= 0 &&
overlaps_nucleus > 0`, else `BACKGROUND_CELL`. -/
def assignRow (r : Row) : ℕ :=
  if 0 ≤ r.cell_id ∧ 0 < r.overlaps_nucleus then r.cell_id.toNat else BACKGROUND_CELL

/-- The reader's accumulated state inside the row loop: the three growing
vectors.  The source's `transcript_name_map : HashMap<String, usize>` maps
each seen name to its position in `transcript_names`; it is represented by
`transcript_names` itself (lookup = `List.indexOf`). -/
structure ReadState where
  transcripts : List Transcript
  transcript_names : List String
  cell_assignments : List ℕ
deriving DecidableEq, Repr

/-- One iteration of the row loop of `read_transcripts_csv_xy` /
`read_transcripts_csv_xyz` (`transcripts.rs` lines 102–137 / 179–216):
skip the row when `qv < min_qv`, otherwise look the name up (inserting it
with the next dense id when absent) and push the transcript and its
initial assignment.  `useZ` selects the `xyz` variant, which stores the
parsed `z` coordinate instead of `0.0`. -/
def readStep (useZ : Bool) (min_qv : ℚ) (s : ReadState) (r : Row) : ReadState :=
  if r.qv < min_qv then s
  else
    let gene : ℕ :=
      if r.name ∈ s.transcript_names then List.indexOf r.name s.transcript_names
      else s.transcript_names.length
    { transcripts := s.transcripts ++ [⟨r.x, r.y, if useZ then r.z else 0, gene⟩]
      transcript_names :=
        if r.name ∈ s.transcript_names then s.transcript_names
        else s.transcript_names ++ [r.name]
      cell_assignments := s.cell_assignments ++ [assignRow r] }

/-- One step of the `ncells` scan of `postprocess_cell_assignments`
(`transcripts.rs` lines 55–62).  The source uses `usize::MAX` as an
"unset" sentinel for `ncells`; that sentinel is `none` here (a set value
is at most `u32::MAX + 1`, so it never collides with the sentinel). -/
def ncellsStep (acc : Option ℕ) (cell_id : ℕ) : Option ℕ :=
  if cell_id ≠ BACKGROUND_CELL then
    match acc with
    | none => some (cell_id + 1)
    | some n => if n ≤ cell_id then some (cell_id + 1) else some n
  else acc

/-- One step of the population histogram loop of
`postprocess_cell_assignments` (`transcripts.rs` lines 69–73):
`cell_population[cell_id] += 1` for non-background entries. -/
def popStep (pop : List ℕ) (cell_id : ℕ) : List ℕ :=
  if cell_id ≠ BACKGROUND_CELL then pop.set cell_id (pop.getD cell_id 0 + 1) else pop

/-- The `ncells` value computed by the first loop of
`postprocess_cell_assignments` (`transcripts.rs` lines 55–66): one more
than the largest non-background id, or 0 when every entry is background. -/
def ncellsOf (cell_assignments : List ℕ) : ℕ :=
  (cell_assignments.foldl ncellsStep none).getD 0

/-- `postprocess_cell_assignments` (`transcripts.rs` lines 54–76):
compute `ncells`, then tally the population histogram over a zeroed
vector of that length. -/
def postprocess_cell_assignments (cell_assignments : List ℕ) : List ℕ :=
  cell_assignments.foldl popStep (List.replicate (ncellsOf cell_assignments) 0)

/-- The quadruple returned by the readers (`transcripts.rs` lines 141–146
/ 220–225). -/
structure ReadResult where
  transcript_names : List String
  transcripts : List Transcript
  cell_assignments : List ℕ
  cell_population : List ℕ
deriving DecidableEq, Repr

/-- `read_transcripts_csv_xy` (`transcripts.rs` lines 78–147) on parsed
rows: fold the row loop from empty state, then post-process the
assignments. -/
def read_transcripts_csv_xy (min_qv : ℚ) (rows : List Row) : ReadResult :=
  let s := rows.foldl (readStep false min_qv) ⟨[], [], []⟩
  ⟨s.transcript_names, s.transcripts, s.cell_assignments,
    postprocess_cell_assignments s.cell_assignments⟩

/-- `read_transcripts_csv_xyz` (`transcripts.rs` lines 149–226): identical
to the `xy` variant except that the parsed `z` value is stored. -/
def read_transcripts_csv_xyz (min_qv : ℚ) (rows : List Row) : ReadResult :=
  let s := rows.foldl (readStep true min_qv) ⟨[], [], []⟩
  ⟨s.transcript_names, s.transcripts, s.cell_assignments,
    postprocess_cell_assignments s.cell_assignments⟩

/-- `read_transcripts_csv` (`transcripts.rs` lines 18–44): dispatch on the
presence of a `z` column. -/
def read_transcripts_csv (z_column : Option String) (min_qv : ℚ) (rows : List Row) :
    ReadResult :=
  match z_column with
  | some _ => read_transcripts_csv_xyz min_qv rows
  | none => read_transcripts_csv_xy min_qv rows

/-- The rows that survive the quality filter (`qv < min_qv` rows are
skipped by `continue`). -/
def keptRows (min_qv : ℚ) (rows : List Row) : List Row :=
  rows.filter (fun r => min_qv ≤ r.qv)

/-- The number of rows the quality filter drops. -/
def countExcluded (min_qv : ℚ) (rows : List Row) : ℕ :=
  (rows.filter (fun r => r.qv < min_qv)).length

/-- The distinct elements of a list in first-seen order (the order in
which `read_transcripts_csv` hands out dense gene ids, per the spec's
"assigns a dense gene id per distinct transcript name in first-seen
order"). -/
def firstSeen (acc : List String) : List String → List String
  | [] => acc
  | n :: ns => firstSeen (if n ∈ acc then acc else acc ++ [n]) ns

/-- Reference form of the transcript list the row loop builds (used to
reason about `readStep` folds): given the names seen so far, each row
yields a transcript whose gene id is its name's index in the running
name list. -/
def buildTs (useZ : Bool) (names : List String) : List Row → List Transcript
  | [] => []
  | r :: rs =>
    ⟨r.x, r.y, if useZ then r.z else 0,
        if r.name ∈ names then List.indexOf r.name names else names.length⟩ ::
      buildTs useZ (if r.name ∈ names then names else names ++ [r.name]) rs

/-! ### main.rs: ncells, schedule, outer-loop structure -/

/-- `let ncells = init_cell_population.len() - 1;` (`main.rs` line 82).
The subtraction is on `usize`: for an empty population vector it
underflows, which panics in a debug build (and wraps to `usize::MAX` in
release, after which allocation of the model state aborts).  The
underflow is modelled as `none`. -/
def ncellsMain (init_cell_population : List ℕ) : Option ℕ :=
  if init_cell_population.length = 0 then none else some (init_cell_population.length - 1)

/-- "The non-background initial cell ids are exactly the dense range
`0..k-1`": every natural number is a non-background entry of the
assignment list exactly when it is below `k`. -/
def denseAssignments (k : ℕ) (assigns : List ℕ) : Prop :=
  ∀ c : ℕ, (c ∈ assigns ∧ c ≠ BACKGROUND_CELL) ↔ c < k

/-- The command-line options of `main.rs` lines 20–61 that feed the
sampler (with their clap defaults). -/
structure Args where
  ncomponents : ℕ := 20
  niter : ℕ := 100000
  background_prob : ℚ := 1 / 20
  local_steps_per_iter : ℕ := 100
deriving DecidableEq, Repr

/-- The stage schedule hardcoded in `main.rs` lines 158–163:
`[(5.0, 200), (2.5, 200), (1.0, 200), (0.5, 200)]`. -/
def sampler_schedule : List (ℚ × ℕ) := [(5, 200), (5 / 2, 200), (1, 200), (1 / 2, 200)]

/-- The schedule `main` actually runs for a given configuration: the
hardcoded `sampler_schedule`, independent of every option in `Args`
(`args.niter` is parsed but never read by the driver loop of lines
166–179). -/
def mainSchedule (_ : Args) : List (ℚ × ℕ) := sampler_schedule

/-- The total number of outer sampler iterations `main` executes for a
given configuration: the sum of the per-stage iteration counts. -/
def mainTotalOuterIterations (a : Args) : ℕ :=
  ((mainSchedule a).map Prod.snd).sum

/-- The sequence of `run_hexbin_sampler` invocations made by the driver
loop of `main.rs` lines 166–179, each paired with the `ncells` argument
it receives.  `ncells` is an immutable binding computed once at line 82,
so every stage receives the same value. -/
def mainStageInvocations (cell_assignments : List ℕ) : List ((ℚ × ℕ) × Option ℕ) :=
  sampler_schedule.map
    (fun st => (st, ncellsMain (postprocess_cell_assignments cell_assignments)))

/-! ### main.rs lines 103–115: the chunk-size search loop

The loop works on `f32`/`f64` values; it is modelled with exact real
arithmetic.  `nchunks` casts the two `ceil` results to `usize`
(saturating at 0 for non-positive arguments), which `Int.toNat` mirrors. -/

/-- `min_cells_per_chunk = (ncells as f64).min(100.0)` (`main.rs` line
107). -/
noncomputable def min_cells_per_chunk (ncells : ℕ) : ℝ := min (ncells : ℝ) 100

/-- The `nchunks` closure of `main.rs` lines 109–111. -/
noncomputable def nchunks (chunk_size xspan yspan : ℝ) : ℕ :=
  (⌈xspan / chunk_size⌉.toNat) * (⌈yspan / chunk_size⌉.toNat)

/-- The value of `chunk_size` after `n` executions of the loop body
`chunk_size *= SQRT_2` (`main.rs` line 114), starting from `c0`. -/
noncomputable def chunkIter (c0 : ℝ) (n : ℕ) : ℝ := c0 * Real.sqrt 2 ^ n

/-- The guard of the `while` loop at `main.rs` line 113. -/
noncomputable def chunkLoopCond (ncells : ℕ) (xspan yspan chunk_size : ℝ) : Prop :=
  (ncells : ℝ) / (nchunks chunk_size xspan yspan : ℝ) < min_cells_per_chunk ncells

/-! ### main.rs lines 230–271: `run_hexbin_sampler`

The sampler internals (`HexBinSampler`) live in a module that is not part
of the two source files; the claim about `run_hexbin_sampler` is about
its call structure, which is fully visible in `main.rs`.  The embedding
instruments that control flow: the state records how many times
`sample_global_params` has run (the "version" of the global parameters),
and each `sample_cell_regions` call records the outer-iteration index it
belongs to together with the global-parameter version it reads. -/

structure HexRunState where
  version : ℕ
  localReads : List (ℕ × ℕ)
  loglikCount : ℕ
  resetCount : ℕ
deriving DecidableEq, Repr

/-- `sampler.sample_global_params(priors, params)`: produces a new
generation of global parameters. -/
def sampleGlobal (s : HexRunState) : HexRunState :=
  { s with version := s.version + 1 }

/-- `sampler.sample_cell_regions(...)` during outer iteration `i`: a
local move batch reading the current global parameters. -/
def sampleLocal (i : ℕ) (s : HexRunState) : HexRunState :=
  { s with localReads := s.localReads ++ [(i, s.version)] }

/-- The inner loop `for _ in 0..local_steps_per_iter` (`main.rs` lines
257–259) during outer iteration `i`. -/
def localLoop : ℕ → ℕ → HexRunState → HexRunState
  | 0, _, s => s
  | k + 1, i, s => localLoop k i (sampleLocal i s)

/-- One outer iteration of `run_hexbin_sampler` (`main.rs` lines
256–270): `local_steps_per_iter` local batches, then one global
resampling, one full log-likelihood evaluation and one proposal-stats
reset. -/
def hexIteration (k i : ℕ) (s : HexRunState) : HexRunState :=
  let s1 := localLoop k i s
  let s2 := sampleGlobal s1
  { s2 with loglikCount := s2.loglikCount + 1, resetCount := s2.resetCount + 1 }

/-- `run_hexbin_sampler` (`main.rs` lines 230–271): one global resampling
before the loop (line 253), then `niter` outer iterations with `k` local
steps each. -/
def run_hexbin_sampler (niter k : ℕ) : HexRunState :=
  (List.range niter).foldl (fun s i => hexIteration k i s) (sampleGlobal ⟨0, [], 0, 0⟩)

/-! ### transcripts.rs lines 228–276: `coordinate_span`, `estimate_full_area` -/

/-- `f32::MAX` as an exact rational: `(2 - 2^-23) * 2^127`.
(`f32::MIN = -f32::MAX`.) -/
def f32_max : ℚ := 2 ^ 128 - 2 ^ 104

/-- The six running extrema of `coordinate_span`. -/
structure Span where
  xmin : ℚ
  xmax : ℚ
  ymin : ℚ
  ymax : ℚ
  zmin : ℚ
  zmax : ℚ
deriving DecidableEq, Repr

/-- The loop body of `coordinate_span` (`transcripts.rs` lines 236–243). -/
def spanStep (sp : Span) (t : Transcript) : Span :=
  ⟨min sp.xmin t.x, max sp.xmax t.x, min sp.ymin t.y, max sp.ymax t.y,
    min sp.zmin t.z, max sp.zmax t.z⟩

/-- `coordinate_span` (`transcripts.rs` lines 228–246): fold the running
min/max over the transcripts, starting from the `f32::MAX` / `f32::MIN`
sentinels. -/
def coordinate_span (ts : List Transcript) : Span :=
  ts.foldl spanStep ⟨f32_max, -f32_max, f32_max, -f32_max, f32_max, -f32_max⟩

/-- `binsize = SCALE * mean_nucleus_area.sqrt()` with `SCALE = 2.0`
(`transcripts.rs` lines 253–254). -/
noncomputable def binsizeOf (mean_nucleus_area : ℝ) : ℝ :=
  2 * Real.sqrt mean_nucleus_area

/-- `xbins = ((xmax - xmin) / binsize).ceil() as usize` (`transcripts.rs`
line 256). -/
noncomputable def xbinsOf (ts : List Transcript) (mean_nucleus_area : ℝ) : ℕ :=
  (⌈(((coordinate_span ts).xmax - (coordinate_span ts).xmin : ℚ) : ℝ) /
    binsizeOf mean_nucleus_area⌉).toNat

/-- `ybins = ((ymax - ymin) / binsize).ceil() as usize` (`transcripts.rs`
line 257). -/
noncomputable def ybinsOf (ts : List Transcript) (mean_nucleus_area : ℝ) : ℕ :=
  (⌈(((coordinate_span ts).ymax - (coordinate_span ts).ymin : ℚ) : ℝ) /
    binsizeOf mean_nucleus_area⌉).toNat

/-- `xbin = ((transcript.x - xmin) / binsize).floor() as usize`
(`transcripts.rs` line 264). -/
noncomputable def xbinOf (ts : List Transcript) (mean_nucleus_area : ℝ) (t : Transcript) : ℕ :=
  (⌊((t.x - (coordinate_span ts).xmin : ℚ) : ℝ) / binsizeOf mean_nucleus_area⌋).toNat

/-- `ybin = ((transcript.y - ymin) / binsize).floor() as usize`
(`transcripts.rs` line 265). -/
noncomputable def ybinOf (ts : List Transcript) (mean_nucleus_area : ℝ) (t : Transcript) : ℕ :=
  (⌊((t.y - (coordinate_span ts).ymin : ℚ) : ℝ) / binsizeOf mean_nucleus_area⌋).toNat

/-- In-bounds condition for every write `occupied[[xbin, ybin]]` of
`estimate_full_area` (`transcripts.rs` line 267): the `ndarray` indexing
panics unless `xbin < xbins ∧ ybin < ybins`. -/
def binIndicesInBounds (ts : List Transcript) (mean_nucleus_area : ℝ) : Prop :=
  ∀ t ∈ ts,
    xbinOf ts mean_nucleus_area t < xbinsOf ts mean_nucleus_area ∧
    ybinOf ts mean_nucleus_area t < ybinsOf ts mean_nucleus_area

open Classical in
/-- `estimate_full_area` (`transcripts.rs` lines 250–276): the number of
occupied bins times the bin area, or `none` when some write
`occupied[[xbin, ybin]]` is out of bounds (an `ndarray` panic). -/
noncomputable def estimate_full_area (ts : List Transcript) (mean_nucleus_area : ℝ) :
    Option ℝ :=
  if binIndicesInBounds ts mean_nucleus_area then
    some (((ts.map (fun t =>
        (xbinOf ts mean_nucleus_area t, ybinOf ts mean_nucleus_area t))).dedup).length *
      binsizeOf mean_nucleus_area * binsizeOf mean_nucleus_area)
  else none

/-! ### Concrete inputs used by witnesses and counterexamples -/

/-- Default values used with `List.getD` in positional statements. -/
def dTranscript : Transcript := ⟨0, 0, 0, 0⟩

def dRow : Row := ⟨"", 0, 0, 0, 0, 0, 0⟩

/-- Three parsed rows: one nucleus-overlapping row assigned to cell 0,
one background row (`cell_id = -1`), and one row whose quality `qv = 0`
falls below a `min_qv` threshold of 1. -/
def wRows : List Row :=
  [⟨"g1", 0, 0, 0, 0, 1, 1⟩, ⟨"g2", 1, 0, 0, -1, 0, 1⟩, ⟨"g1", 2, 0, 0, 1, 1, 0⟩]

/-- A single row below a quality threshold of 1. -/
def lowRow : Row := ⟨"g", 0, 0, 0, 0, 1, 0⟩

/-- Two transcripts whose x span (2) is an exact multiple of the bin
size 1 that `mean_nucleus_area = 1/4` induces: the second transcript
sits exactly on the maximal x coordinate. -/
def exTs : List Transcript := [⟨0, 0, 0, 0⟩, ⟨2, 1 / 2, 0, 0⟩]

/-! ## Lemmas: the row loop -/

lemma readStep_skip {useZ : Bool} {q : ℚ} {s : ReadState} {r : Row} (h : r.qv < q) :
    readStep useZ q s r = s := by
  simp [readStep, h]

lemma mem_keptRows {q : ℚ} {rows : List Row} {r : Row} :
    r ∈ keptRows q rows ↔ r ∈ rows ∧ q ≤ r.qv := by
  simp [keptRows]

lemma foldl_readStep_kept (useZ : Bool) (q : ℚ) :
    ∀ (rows : List Row) (s : ReadState),
      rows.foldl (readStep useZ q) s = (keptRows q rows).foldl (readStep useZ q) s := by
  intro rows
  induction rows with
  | nil => intro s; rfl
  | cons r rs ih =>
    intro s
    by_cases h : r.qv < q
    · have hk : keptRows q (r :: rs) = keptRows q rs := by
        simp [keptRows, List.filter_cons, not_le.mpr h]
      simp only [List.foldl_cons, readStep_skip h, hk, ih]
    · have hk : keptRows q (r :: rs) = r :: keptRows q rs := by
        simp [keptRows, List.filter_cons, not_lt.mp h]
      simp only [List.foldl_cons, hk, ih]

lemma foldl_readStep_spec (useZ : Bool) (q : ℚ) :
    ∀ (rows : List Row) (s : ReadState), (∀ r ∈ rows, q ≤ r.qv) →
      rows.foldl (readStep useZ q) s =
        ⟨s.transcripts ++ buildTs useZ s.transcript_names rows,
          firstSeen s.transcript_names (rows.map Row.name),
          s.cell_assignments ++ rows.map assignRow⟩ := by
  intro rows
  induction rows with
  | nil => intro s _; simp [buildTs, firstSeen]
  | cons r rs ih =>
    intro s hq
    have hr : ¬ r.qv < q := not_lt.mpr (hq r (by simp))
    rw [List.foldl_cons, ih _ (fun x hx => hq x (by simp [hx]))]
    simp only [readStep, hr, if_false, buildTs, firstSeen, List.map_cons]
    by_cases hm : r.name ∈ s.transcript_names <;>
      simp [hm, List.append_assoc]

lemma read_csv_fields (zcol : Option String) (q : ℚ) (rows : List Row) :
    read_transcripts_csv zcol q rows =
      ⟨firstSeen [] ((keptRows q rows).map Row.name),
        buildTs zcol.isSome [] (keptRows q rows),
        (keptRows q rows).map assignRow,
        postprocess_cell_assignments ((keptRows q rows).map assignRow)⟩ := by
  have hkept : ∀ r ∈ keptRows q rows, q ≤ r.qv := fun r hr => (mem_keptRows.mp hr).2
  cases zcol with
  | none =>
    simp [read_transcripts_csv, read_transcripts_csv_xy, Option.isSome_none,
      foldl_readStep_kept false q rows, foldl_readStep_spec false q _ _ hkept]
  | some z =>
    simp [read_transcripts_csv, read_transcripts_csv_xyz, Option.isSome_some,
      foldl_readStep_kept true q rows, foldl_readStep_spec true q _ _ hkept]

/-! ## Lemmas: first-seen name list and gene ids -/

lemma firstSeen_ext :
    ∀ (l : List String) (acc : List String), ∃ ext, firstSeen acc l = acc ++ ext := by
  intro l
  induction l with
  | nil => intro acc; exact ⟨[], by simp [firstSeen]⟩
  | cons n ns ih =>
    intro acc
    by_cases h : n ∈ acc
    · obtain ⟨ext, he⟩ := ih acc
      exact ⟨ext, by simp [firstSeen, h, he]⟩
    · obtain ⟨ext, he⟩ := ih (acc ++ [n])
      exact ⟨[n] ++ ext, by simp [firstSeen, h, he]⟩

lemma firstSeen_nodup :
    ∀ (l : List String) (acc : List String), acc.Nodup → (firstSeen acc l).Nodup := by
  intro l
  induction l with
  | nil => intro acc h; simpa [firstSeen] using h
  | cons n ns ih =>
    intro acc h
    by_cases hm : n ∈ acc
    · simpa [firstSeen, hm] using ih acc h
    · have : (acc ++ [n]).Nodup := by simp [List.nodup_append, h, hm]
      simpa [firstSeen, hm] using ih (acc ++ [n]) this

lemma buildTs_length (useZ : Bool) :
    ∀ (rows : List Row) (names : List String), (buildTs useZ names rows).length = rows.length := by
  intro rows
  induction rows with
  | nil => intro names; rfl
  | cons r rs ih => intro names; simp [buildTs, ih]

lemma buildTs_gene_spec (useZ : Bool) :
    ∀ (rows : List Row) (names : List String), names.Nodup →
      ∀ i, i < rows.length →
        ((buildTs useZ names rows).getD i dTranscript).gene <
            (firstSeen names (rows.map Row.name)).length ∧
          (firstSeen names (rows.map Row.name)).getD
              ((buildTs useZ names rows).getD i dTranscript).gene "" =
            (rows.getD i dRow).name ∧
          List.indexOf (rows.getD i dRow).name (firstSeen names (rows.map Row.name)) =
            ((buildTs useZ names rows).getD i dTranscript).gene := by
  intro rows
  induction rows with
  | nil => intro names _ i hi; simp at hi
  | cons r rs ih =>
    intro names hnd i hi
    by_cases hm : r.name ∈ names
    · have hfs : firstSeen names ((r :: rs).map Row.name) = firstSeen names (rs.map Row.name) := by
        simp [firstSeen, hm]
      cases i with
      | zero =>
        have hgd : ((buildTs useZ names (r :: rs)).getD 0 dTranscript).gene =
            List.indexOf r.name names := by simp [buildTs, hm]
        obtain ⟨ext, hext⟩ := firstSeen_ext (rs.map Row.name) names
        have hlt : List.indexOf r.name names < names.length := List.indexOf_lt_length.mpr hm
        refine ⟨?_, ?_, ?_⟩
        · rw [hfs, hext, hgd]
          calc List.indexOf r.name names < names.length := hlt
            _ ≤ (names ++ ext).length := by simp
        · rw [hfs, hext, hgd]
          have := List.getD_append names ext "" (List.indexOf r.name names) hlt
          rw [this, List.getD_eq_getElem _ _ hlt]
          exact List.getElem_indexOf hlt
        · rw [hfs, hext, hgd]
          show List.indexOf (r.name) (names ++ ext) = _
          rw [List.indexOf_append_of_mem hm]
      | succ i =>
        have h := ih names hnd i (by simpa using hi)
        have hb : (buildTs useZ names (r :: rs)).getD (i + 1) dTranscript =
            (buildTs useZ names rs).getD i dTranscript := by simp [buildTs, hm]
        rw [hfs, hb]
        simpa using h
    · have hfs : firstSeen names ((r :: rs).map Row.name) =
          firstSeen (names ++ [r.name]) (rs.map Row.name) := by
        simp [firstSeen, hm]
      have hnd1 : (names ++ [r.name]).Nodup := by simp [List.nodup_append, hnd, hm]
      cases i with
      | zero =>
        have hgd : ((buildTs useZ names (r :: rs)).getD 0 dTranscript).gene = names.length := by
          simp [buildTs, hm]
        obtain ⟨ext, hext⟩ := firstSeen_ext (rs.map Row.name) (names ++ [r.name])
        have hmem1 : r.name ∈ names ++ [r.name] := by simp
        have hlt : names.length < (names ++ [r.name]).length := by simp
        refine ⟨?_, ?_, ?_⟩
        · rw [hfs, hext, hgd]
          calc names.length < (names ++ [r.name]).length := hlt
            _ ≤ ((names ++ [r.name]) ++ ext).length := by simp
        · rw [hfs, hext, hgd]
          have := List.getD_append (names ++ [r.name]) ext "" names.length hlt
          rw [this, List.getD_eq_getElem _ _ hlt]
          simp
        · rw [hfs, hext, hgd]
          show List.indexOf (r.name) ((names ++ [r.name]) ++ ext) = _
          rw [List.indexOf_append_of_mem hmem1, List.indexOf_append_of_not_mem hm]
          simp [List.indexOf_cons_self]
      | succ i =>
        have h := ih (names ++ [r.name]) hnd1 i (by simpa using hi)
        have hb : (buildTs useZ names (r :: rs)).getD (i + 1) dTranscript =
            (buildTs useZ (names ++ [r.name]) rs).getD i dTranscript := by simp [buildTs, hm]
        rw [hfs, hb]
        simpa using h

/-! ## Lemmas: `postprocess_cell_assignments` -/

lemma ncellsStep_getD_mono (acc : Option ℕ) (a : ℕ) :
    acc.getD 0 ≤ (ncellsStep acc a).getD 0 := by
  cases acc with
  | none =>
    by_cases h : a ≠ BACKGROUND_CELL <;> simp [ncellsStep, h]
  | some n =>
    by_cases h : a ≠ BACKGROUND_CELL
    · by_cases hle : n ≤ a <;> simp [ncellsStep, h, hle] <;> omega
    · simp [ncellsStep, h]

lemma foldl_ncellsStep_getD_mono :
    ∀ (l : List ℕ) (acc : Option ℕ), acc.getD 0 ≤ (l.foldl ncellsStep acc).getD 0 := by
  intro l
  induction l with
  | nil => intro acc; simp
  | cons a rest ih =>
    intro acc
    exact le_trans (ncellsStep_getD_mono acc a) (ih (ncellsStep acc a))

lemma foldl_ncellsStep_gt :
    ∀ (l : List ℕ) (acc : Option ℕ) (a : ℕ), a ∈ l → a ≠ BACKGROUND_CELL →
      a < (l.foldl ncellsStep acc).getD 0 := by
  intro l
  induction l with
  | nil => intro acc a ha; simp at ha
  | cons b rest ih =>
    intro acc a ha hbg
    rcases List.mem_cons.mp ha with rfl | hmem
    · have hstep : a + 1 ≤ (ncellsStep acc a).getD 0 := by
        cases acc with
        | none => simp [ncellsStep, hbg]
        | some n => by_cases hle : n ≤ a <;> simp [ncellsStep, hbg, hle] <;> omega
      calc a < a + 1 := Nat.lt_succ_self a
        _ ≤ (ncellsStep acc a).getD 0 := hstep
        _ ≤ _ := foldl_ncellsStep_getD_mono rest (ncellsStep acc a)
    · exact ih (ncellsStep acc b) a hmem hbg

lemma foldl_ncellsStep_cases :
    ∀ (l : List ℕ) (acc : Option ℕ),
      l.foldl ncellsStep acc = acc ∨
        ∃ a ∈ l, a ≠ BACKGROUND_CELL ∧ l.foldl ncellsStep acc = some (a + 1) := by
  intro l
  induction l with
  | nil => intro acc; left; rfl
  | cons b rest ih =>
    intro acc
    have hstep : ncellsStep acc b = acc ∨
        (b ≠ BACKGROUND_CELL ∧ ncellsStep acc b = some (b + 1)) := by
      by_cases h : b ≠ BACKGROUND_CELL
      · cases acc with
        | none => right; exact ⟨h, by simp [ncellsStep, h]⟩
        | some n =>
          by_cases hle : n ≤ b
          · right; exact ⟨h, by simp [ncellsStep, h, hle]⟩
          · left; simp [ncellsStep, h, hle]
      · left; simp [ncellsStep, h]
    rcases ih (ncellsStep acc b) with heq | ⟨a, ha, habg, heq⟩
    · rcases hstep with h1 | ⟨hbg, h1⟩
      · left; rw [List.foldl_cons, heq, h1]
      · right; exact ⟨b, by simp, hbg, by rw [List.foldl_cons, heq, h1]⟩
    · right; exact ⟨a, by simp [ha], habg, by rw [List.foldl_cons, heq]⟩

lemma ncellsOf_gt {l : List ℕ} {a : ℕ} (ha : a ∈ l) (hbg : a ≠ BACKGROUND_CELL) :
    a < ncellsOf l :=
  foldl_ncellsStep_gt l none a ha hbg

lemma ncellsOf_cases (l : List ℕ) :
    ncellsOf l = 0 ∨ ∃ a ∈ l, a ≠ BACKGROUND_CELL ∧ ncellsOf l = a + 1 := by
  rcases foldl_ncellsStep_cases l none with heq | ⟨a, ha, habg, heq⟩
  · left; simp [ncellsOf, heq]
  · right; exact ⟨a, ha, habg, by simp [ncellsOf, heq]⟩

lemma popStep_length (pop : List ℕ) (a : ℕ) : (popStep pop a).length = pop.length := by
  unfold popStep
  by_cases h : a ≠ BACKGROUND_CELL <;> simp [h]

lemma foldl_popStep_length :
    ∀ (l : List ℕ) (pop : List ℕ), (l.foldl popStep pop).length = pop.length := by
  intro l
  induction l with
  | nil => intro pop; rfl
  | cons a rest ih => intro pop; rw [List.foldl_cons, ih, popStep_length]

lemma sum_set_getD_succ :
    ∀ (pop : List ℕ) (i : ℕ), i < pop.length →
      (pop.set i (pop.getD i 0 + 1)).sum = pop.sum + 1 := by
  intro pop
  induction pop with
  | nil => intro i hi; simp at hi
  | cons p ps ih =>
    intro i hi
    cases i with
    | zero => simp [List.getD_cons_zero]; omega
    | succ i =>
      have := ih i (by simpa using hi)
      simp only [List.getD_cons_succ, List.set_cons_succ, List.sum_cons, this]
      omega

lemma foldl_popStep_getD :
    ∀ (l : List ℕ) (pop : List ℕ) (c : ℕ), c ≠ BACKGROUND_CELL →
      (∀ a ∈ l, a ≠ BACKGROUND_CELL → a < pop.length) →
      (l.foldl popStep pop).getD c 0 = pop.getD c 0 + l.count c := by
  intro l
  induction l with
  | nil => intro pop c _ _; simp
  | cons a rest ih =>
    intro pop c hc hin
    by_cases hbg : a = BACKGROUND_CELL
    · have hstep : popStep pop a = pop := by simp [popStep, hbg]
      have hcnt : (a :: rest).count c = rest.count c := by
        have hne : ¬ a = c := fun h => hc (h ▸ hbg)
        simp [List.count_cons, hne]
      rw [List.foldl_cons, hstep, hcnt]
      exact ih pop c hc (fun x hx => hin x (by simp [hx]))
    · have halt : a < pop.length := hin a (by simp) hbg
      have hstep : popStep pop a = pop.set a (pop.getD a 0 + 1) := by simp [popStep, hbg]
      have hlen : (pop.set a (pop.getD a 0 + 1)).length = pop.length := by simp
      have hrest := ih (pop.set a (pop.getD a 0 + 1)) c hc
        (fun x hx hxbg => by rw [hlen]; exact hin x (by simp [hx]) hxbg)
      rw [List.foldl_cons, hstep, hrest]
      by_cases hac : a = c
      · subst hac
        have hgd : (pop.set a (pop.getD a 0 + 1)).getD a 0 = pop.getD a 0 + 1 := by
          rw [List.getD_eq_getElem _ _ (by rw [hlen]; exact halt)]
          simp [List.getElem_set_self, List.getD_eq_getElem _ _ halt]
        rw [hgd, List.count_cons]
        simp
        omega
      · have hgd : (pop.set a (pop.getD a 0 + 1)).getD c 0 = pop.getD c 0 := by
          by_cases hcl : c < pop.length
          · rw [List.getD_eq_getElem _ _ (by rw [hlen]; exact hcl),
              List.getD_eq_getElem _ _ hcl]
            simp [List.getElem_set_ne hac]
          · rw [List.getD_eq_default _ _ (by rw [hlen]; omega),
              List.getD_eq_default _ _ (by omega)]
        have hca : ¬ a == c := by simpa using hac
        rw [hgd, List.count_cons]
        simp [hca]

lemma foldl_popStep_sum :
    ∀ (l : List ℕ) (pop : List ℕ),
      (∀ a ∈ l, a ≠ BACKGROUND_CELL → a < pop.length) →
      (l.foldl popStep pop).sum = pop.sum + l.countP (fun a => a ≠ BACKGROUND_CELL) := by
  intro l
  induction l with
  | nil => intro pop _; simp
  | cons a rest ih =>
    intro pop hin
    by_cases hbg : a = BACKGROUND_CELL
    · have hstep : popStep pop a = pop := by simp [popStep, hbg]
      rw [List.foldl_cons, hstep, ih pop (fun x hx => hin x (by simp [hx])),
        List.countP_cons]
      simp [hbg]
    · have halt : a < pop.length := hin a (by simp) hbg
      have hstep : popStep pop a = pop.set a (pop.getD a 0 + 1) := by simp [popStep, hbg]
      have hlen : (pop.set a (pop.getD a 0 + 1)).length = pop.length := by simp
      rw [List.foldl_cons, hstep,
        ih _ (fun x hx hxbg => by rw [hlen]; exact hin x (by simp [hx]) hxbg),
        sum_set_getD_succ pop a halt, List.countP_cons]
      simp [hbg]
      omega

lemma replicate_getD_zero (n c : ℕ) : (List.replicate n (0 : ℕ)).getD c 0 = 0 := by
  by_cases h : c < n
  · rw [List.getD_eq_getElem _ _ (by simpa using h)]
    simp
  · rw [List.getD_eq_default _ _ (by simpa using h)]

lemma postprocess_length (l : List ℕ) :
    (postprocess_cell_assignments l).length = ncellsOf l := by
  unfold postprocess_cell_assignments
  rw [foldl_popStep_length]
  simp

lemma postprocess_getD {l : List ℕ} {c : ℕ}
    (hbnd : ∀ a ∈ l, a ≠ BACKGROUND_CELL → a < BACKGROUND_CELL)
    (hc : c < ncellsOf l) :
    (postprocess_cell_assignments l).getD c 0 = l.count c := by
  have hin : ∀ a ∈ l, a ≠ BACKGROUND_CELL →
      a < (List.replicate (ncellsOf l) (0 : ℕ)).length := by
    intro a ha habg
    simpa using ncellsOf_gt ha habg
  have hcbg : c ≠ BACKGROUND_CELL := by
    rcases ncellsOf_cases l with h0 | ⟨a, ha, habg, hn⟩
    · omega
    · have := hbnd a ha habg
      omega
  unfold postprocess_cell_assignments
  rw [foldl_popStep_getD l _ c hcbg hin, replicate_getD_zero]
  simp

lemma postprocess_conservation (l : List ℕ) :
    (postprocess_cell_assignments l).sum + l.count BACKGROUND_CELL = l.length := by
  have hin : ∀ a ∈ l, a ≠ BACKGROUND_CELL →
      a < (List.replicate (ncellsOf l) (0 : ℕ)).length := by
    intro a ha habg
    simpa using ncellsOf_gt ha habg
  unfold postprocess_cell_assignments
  rw [foldl_popStep_sum l _ hin]
  simp only [List.sum_replicate, smul_eq_mul, Nat.mul_zero, Nat.zero_add]
  have hpart := List.length_eq_countP_add_countP (p := fun a => decide (a ≠ BACKGROUND_CELL))
    (l := l)
  have hcount : l.count BACKGROUND_CELL =
      List.countP (fun a => decide ¬(decide (a ≠ BACKGROUND_CELL) = true)) l := by
    show List.countP (fun a => a == BACKGROUND_CELL) l = _
    rw [show (fun a : ℕ => decide ¬(decide (a ≠ BACKGROUND_CELL) = true)) =
        (fun a : ℕ => a == BACKGROUND_CELL) from by
      funext a
      by_cases h : a = BACKGROUND_CELL <;> simp [h]]
  omega

/-! ## Lemmas: initial assignments -/

lemma assignRow_of_cond {r : Row} (hc : 0 ≤ r.cell_id ∧ 0 < r.overlaps_nucleus) :
    assignRow r = r.cell_id.toNat := if_pos hc

lemma assignRow_of_not_cond {r : Row} (hc : ¬(0 ≤ r.cell_id ∧ 0 < r.overlaps_nucleus)) :
    assignRow r = BACKGROUND_CELL := if_neg hc

lemma assignRow_lt_background {r : Row} (hr : r.cell_id < 2 ^ 31)
    (hne : assignRow r ≠ BACKGROUND_CELL) : assignRow r < BACKGROUND_CELL := by
  by_cases hc : 0 ≤ r.cell_id ∧ 0 < r.overlaps_nucleus
  · rw [assignRow_of_cond hc]
    unfold BACKGROUND_CELL
    omega
  · exact absurd (assignRow_of_not_cond hc) hne

/-! ## Lemmas: `ncellsOf` on dense assignments -/

lemma ncellsOf_of_dense {k : ℕ} {assigns : List ℕ} (hk : 0 < k)
    (hd : denseAssignments k assigns) : ncellsOf assigns = k := by
  have hub : ∀ a ∈ assigns, a ≠ BACKGROUND_CELL → a < k :=
    fun a ha hbg => (hd a).mp ⟨ha, hbg⟩
  have hmem : (k - 1) ∈ assigns ∧ (k - 1) ≠ BACKGROUND_CELL := (hd (k - 1)).mpr (by omega)
  have hlow : k - 1 < ncellsOf assigns := ncellsOf_gt hmem.1 hmem.2
  rcases ncellsOf_cases assigns with h0 | ⟨a, ha, habg, hn⟩
  · omega
  · have := hub a ha habg
    omega

/-! ## Lemmas: the chunk-size search -/

lemma one_lt_sqrt_two : (1 : ℝ) < Real.sqrt 2 := by
  have h := Real.sqrt_lt_sqrt (by norm_num : (0 : ℝ) ≤ 1) (by norm_num : (1 : ℝ) < 2)
  simpa [Real.sqrt_one] using h

lemma chunkIter_mono {c0 : ℝ} (hc : 0 < c0) {m n : ℕ} (hmn : m ≤ n) :
    chunkIter c0 m ≤ chunkIter c0 n := by
  unfold chunkIter
  exact mul_le_mul_of_nonneg_left
    (pow_le_pow_right₀ (le_of_lt one_lt_sqrt_two) hmn) (le_of_lt hc)

lemma nchunks_eq_one {c xspan yspan : ℝ} (hx : 0 < xspan) (hy : 0 < yspan)
    (hcx : xspan ≤ c) (hcy : yspan ≤ c) : nchunks c xspan yspan = 1 := by
  have hc : 0 < c := lt_of_lt_of_le hx hcx
  have hx1 : ⌈xspan / c⌉ = 1 := by
    have h1 : 0 < ⌈xspan / c⌉ := Int.ceil_pos.mpr (div_pos hx hc)
    have h2 : ⌈xspan / c⌉ ≤ 1 := Int.ceil_le.mpr (by simpa using (div_le_one hc).mpr hcx)
    omega
  have hy1 : ⌈yspan / c⌉ = 1 := by
    have h1 : 0 < ⌈yspan / c⌉ := Int.ceil_pos.mpr (div_pos hy hc)
    have h2 : ⌈yspan / c⌉ ≤ 1 := Int.ceil_le.mpr (by simpa using (div_le_one hc).mpr hcy)
    omega
  simp [nchunks, hx1, hy1]

lemma chunkLoopCond_exit {ncells : ℕ} {xspan yspan c : ℝ}
    (hx : 0 < xspan) (hy : 0 < yspan) (hcx : xspan ≤ c) (hcy : yspan ≤ c) :
    ¬ chunkLoopCond ncells xspan yspan c := by
  unfold chunkLoopCond
  rw [nchunks_eq_one hx hy hcx hcy, not_lt]
  simp only [Nat.cast_one, div_one, min_cells_per_chunk]
  exact min_le_left _ _

lemma chunk_search_terminates {ncells : ℕ} {xspan yspan c0 : ℝ}
    (hx : 0 < xspan) (hy : 0 < yspan) (hc : 0 < c0) :
    ∃ n, ¬ chunkLoopCond ncells xspan yspan (chunkIter c0 n) := by
  obtain ⟨n, hn2⟩ := pow_unbounded_of_one_lt (max xspan yspan / c0) one_lt_sqrt_two
  have hmax : max xspan yspan < chunkIter c0 n := by
    unfold chunkIter
    calc max xspan yspan = c0 * (max xspan yspan / c0) := by field_simp
      _ < c0 * Real.sqrt 2 ^ n := by
          exact mul_lt_mul_of_pos_left hn2 hc
  exact ⟨n, chunkLoopCond_exit hx hy
    (le_of_lt (lt_of_le_of_lt (le_max_left _ _) hmax))
    (le_of_lt (lt_of_le_of_lt (le_max_right _ _) hmax))⟩

/-! ## Lemmas: the `run_hexbin_sampler` control flow -/

lemma localLoop_spec :
    ∀ (k i : ℕ) (s : HexRunState),
      localLoop k i s =
        { s with localReads := s.localReads ++ List.replicate k (i, s.version) } := by
  intro k
  induction k with
  | zero => intro i s; simp [localLoop]
  | succ k ih =>
    intro i s
    rw [show localLoop (k + 1) i s = localLoop k i (sampleLocal i s) from rfl, ih]
    simp [sampleLocal, List.replicate_succ]

lemma run_hexbin_spec (niter k : ℕ) :
    run_hexbin_sampler niter k =
      ⟨niter + 1, (List.range niter).flatMap (fun i => List.replicate k (i, i + 1)),
        niter, niter⟩ := by
  induction niter with
  | zero => simp [run_hexbin_sampler, sampleGlobal]
  | succ n ih =>
    unfold run_hexbin_sampler at ih ⊢
    rw [List.range_succ, List.foldl_append, ih, List.foldl_cons, List.foldl_nil,
      List.flatMap_append]
    simp [hexIteration, localLoop_spec, sampleGlobal]

lemma reads_filter_eq (k : ℕ) :
    ∀ (n i : ℕ), i < n →
      ((List.range n).flatMap (fun j => List.replicate k (j, j + 1))).filter
        (fun p => p.1 == i) = List.replicate k (i, i + 1) := by
  intro n
  induction n with
  | zero => intro i hi; omega
  | succ n ih =>
    intro i hi
    rw [List.range_succ, List.flatMap_append, List.filter_append]
    by_cases h : i < n
    · rw [ih i h]
      have hne : ¬ n = i := by omega
      have : (List.replicate k (n, n + 1)).filter (fun p => p.1 == i) = [] := by
        apply List.filter_eq_nil_iff.mpr
        intro p hp
        rw [(List.mem_replicate.mp hp).2]
        simpa using hne
      simp [this]
    · have hin : i = n := by omega
      subst hin
      have h1 : ((List.range i).flatMap
          (fun j => List.replicate k (j, j + 1))).filter (fun p => p.1 == i) = [] := by
        apply List.filter_eq_nil_iff.mpr
        intro p hp
        obtain ⟨j, hj, hpj⟩ := List.mem_flatMap.mp hp
        rw [(List.mem_replicate.mp hpj).2]
        have : j < i := List.mem_range.mp hj
        simpa using (by omega : ¬ j = i)
      have h2 : (List.replicate k (i, i + 1)).filter (fun p => p.1 == i) =
          List.replicate k (i, i + 1) := by
        apply List.filter_eq_self.mpr
        intro p hp
        rw [(List.mem_replicate.mp hp).2]
        simp
      simp [h1, h2]

lemma reads_mem_spec {k n : ℕ} {p : ℕ × ℕ}
    (hp : p ∈ (List.range n).flatMap (fun j => List.replicate k (j, j + 1))) :
    p.2 = p.1 + 1 ∧ p.1 < n := by
  obtain ⟨j, hj, hpj⟩ := List.mem_flatMap.mp hp
  rw [(List.mem_replicate.mp hpj).2]
  exact ⟨rfl, List.mem_range.mp hj⟩

/-! ## Lemmas: coordinate span bounds -/

lemma foldl_spanStep_acc_le :
    ∀ (ts : List Transcript) (sp : Span),
      (ts.foldl spanStep sp).xmin ≤ sp.xmin ∧ sp.xmax ≤ (ts.foldl spanStep sp).xmax ∧
        (ts.foldl spanStep sp).ymin ≤ sp.ymin ∧ sp.ymax ≤ (ts.foldl spanStep sp).ymax := by
  intro ts
  induction ts with
  | nil => intro sp; exact ⟨le_refl _, le_refl _, le_refl _, le_refl _⟩
  | cons t rest ih =>
    intro sp
    obtain ⟨h1, h2, h3, h4⟩ := ih (spanStep sp t)
    refine ⟨le_trans h1 ?_, le_trans ?_ h2, le_trans h3 ?_, le_trans ?_ h4⟩ <;>
      simp [spanStep]

lemma span_bounds {ts : List Transcript} {t : Transcript} (ht : t ∈ ts) :
    (coordinate_span ts).xmin ≤ t.x ∧ t.x ≤ (coordinate_span ts).xmax ∧
      (coordinate_span ts).ymin ≤ t.y ∧ t.y ≤ (coordinate_span ts).ymax := by
  unfold coordinate_span
  generalize (⟨f32_max, -f32_max, f32_max, -f32_max, f32_max, -f32_max⟩ : Span) = sp0
  induction ts generalizing sp0 with
  | nil => simp at ht
  | cons u rest ih =>
    rcases List.mem_cons.mp ht with rfl | hmem
    · obtain ⟨h1, h2, h3, h4⟩ := foldl_spanStep_acc_le rest (spanStep sp0 t)
      rw [List.foldl_cons]
      refine ⟨le_trans h1 ?_, le_trans ?_ h2, le_trans h3 ?_, le_trans ?_ h4⟩ <;>
        simp [spanStep]
    · rw [List.foldl_cons]
      exact ih hmem _

/-! ## Lemmas: floor/ceil bin bounds -/

lemma bin_toNat_le {d D : ℝ} (hdD : d ≤ D) : (⌊d⌋).toNat ≤ (⌈D⌉).toNat := by
  have h : ⌊d⌋ ≤ ⌈D⌉ := le_trans (Int.floor_mono hdD) (Int.floor_le_ceil D)
  omega

lemma bin_toNat_lt_of_lt {d D : ℝ} (hd : 0 ≤ d) (hdD : d < D) :
    (⌊d⌋).toNat < (⌈D⌉).toNat := by
  have h1 : ⌊d⌋ < ⌈D⌉ := by
    have h : (⌊d⌋ : ℝ) < (⌈D⌉ : ℝ) :=
      lt_of_le_of_lt (Int.floor_le d) (lt_of_lt_of_le hdD (Int.le_ceil D))
    exact_mod_cast h
  have h2 : 0 < ⌈D⌉ := Int.ceil_pos.mpr (lt_of_le_of_lt hd hdD)
  omega

lemma bin_toNat_lt_of_not_int {d D : ℝ} (hd : 0 ≤ d) (hdD : d ≤ D)
    (hni : ∀ m : ℤ, D ≠ (m : ℝ)) : (⌊d⌋).toNat < (⌈D⌉).toNat := by
  have h1 : (⌊D⌋ : ℝ) < D := lt_of_le_of_ne (Int.floor_le D) (fun h => hni ⌊D⌋ h.symm)
  have hfl : ⌊D⌋ < ⌈D⌉ := by
    exact_mod_cast lt_of_lt_of_le h1 (Int.le_ceil D)
  have h0 : 0 ≤ ⌊D⌋ := Int.floor_nonneg.mpr (le_trans hd hdD)
  have hm : ⌊d⌋ ≤ ⌊D⌋ := Int.floor_mono hdD
  omega

lemma dense_one_zero : denseAssignments 1 [0] := by
  intro c
  constructor
  · rintro ⟨hc, -⟩
    have : c = 0 := by simpa using hc
    omega
  · intro hc
    have hc0 : c = 0 := by omega
    subst hc0
    exact ⟨by simp, by decide⟩

/-! ## Claim theorems -/

/-- C1: the `cell_population` vector returned by `read_transcripts_csv`
(computed by `postprocess_cell_assignments`) is an exact tally: every
entry `cell_population[c]` equals the number of assignment entries equal
to `c`, and the sum of all entries plus the number of `BACKGROUND_CELL`
entries equals the number of retained transcripts (`cell_assignments`
and `transcripts` have equal length).  The hypothesis records that every
retained row's `cell_id` parsed as an `i32`. -/
theorem claim_C1_population_is_exact_tally (z_column : Option String) (min_qv : ℚ)
    (rows : List Row) (hvalid : ∀ r ∈ keptRows min_qv rows, r.cell_id < 2 ^ 31) :
    (∀ c, c < (read_transcripts_csv z_column min_qv rows).cell_population.length →
        (read_transcripts_csv z_column min_qv rows).cell_population.getD c 0 =
          (read_transcripts_csv z_column min_qv rows).cell_assignments.count c) ∧
      (read_transcripts_csv z_column min_qv rows).cell_population.sum +
          (read_transcripts_csv z_column min_qv rows).cell_assignments.count
            BACKGROUND_CELL =
        (read_transcripts_csv z_column min_qv rows).transcripts.length ∧
      (read_transcripts_csv z_column min_qv rows).cell_assignments.length =
        (read_transcripts_csv z_column min_qv rows).transcripts.length := by
  rw [read_csv_fields]
  dsimp only
  have hbnd : ∀ a ∈ (keptRows min_qv rows).map assignRow, a ≠ BACKGROUND_CELL →
      a < BACKGROUND_CELL := by
    intro a ha hne
    obtain ⟨r, hr, rfl⟩ := List.mem_map.mp ha
    exact assignRow_lt_background (hvalid r hr) hne
  refine ⟨?_, ?_, ?_⟩
  · intro c hc
    rw [postprocess_length] at hc
    exact postprocess_getD hbnd hc
  · exact (postprocess_conservation _).trans (by simp [buildTs_length])
  · simp [buildTs_length]

/-- Witness for C1 at a concrete input (two retained rows, one filtered
row; one cell-0 transcript and one background transcript). -/
theorem claim_C1_population_is_exact_tally_witness :
    (∀ r ∈ keptRows 1 wRows, r.cell_id < 2 ^ 31) ∧
      ((∀ c, c < (read_transcripts_csv none 1 wRows).cell_population.length →
          (read_transcripts_csv none 1 wRows).cell_population.getD c 0 =
            (read_transcripts_csv none 1 wRows).cell_assignments.count c) ∧
        (read_transcripts_csv none 1 wRows).cell_population.sum +
            (read_transcripts_csv none 1 wRows).cell_assignments.count BACKGROUND_CELL =
          (read_transcripts_csv none 1 wRows).transcripts.length ∧
        (read_transcripts_csv none 1 wRows).cell_assignments.length =
          (read_transcripts_csv none 1 wRows).transcripts.length) :=
  ⟨by decide, claim_C1_population_is_exact_tally none 1 wRows (by decide)⟩

/-- C2: a retained row gets the non-background assignment
`cell_id as u32` exactly when `cell_id >= 0 && overlaps_nucleus > 0`,
and `BACKGROUND_CELL` otherwise. -/
theorem claim_C2_initial_assignment_rule (z_column : Option String) (min_qv : ℚ)
    (rows : List Row) (hvalid : ∀ r ∈ keptRows min_qv rows, r.cell_id < 2 ^ 31) :
    (read_transcripts_csv z_column min_qv rows).cell_assignments =
        (keptRows min_qv rows).map assignRow ∧
      ∀ r ∈ keptRows min_qv rows,
        ((0 ≤ r.cell_id ∧ 0 < r.overlaps_nucleus) →
            assignRow r = r.cell_id.toNat ∧ assignRow r ≠ BACKGROUND_CELL) ∧
          (¬(0 ≤ r.cell_id ∧ 0 < r.overlaps_nucleus) →
            assignRow r = BACKGROUND_CELL) := by
  refine ⟨by rw [read_csv_fields], ?_⟩
  intro r hr
  refine ⟨fun hc => ⟨assignRow_of_cond hc, ?_⟩, fun hc => assignRow_of_not_cond hc⟩
  have h1 := hvalid r hr
  rw [assignRow_of_cond hc]
  unfold BACKGROUND_CELL
  omega

/-- Witness for C2 at a concrete input. -/
theorem claim_C2_initial_assignment_rule_witness :
    (∀ r ∈ keptRows 1 wRows, r.cell_id < 2 ^ 31) ∧
      ((read_transcripts_csv none 1 wRows).cell_assignments =
          (keptRows 1 wRows).map assignRow ∧
        ∀ r ∈ keptRows 1 wRows,
          ((0 ≤ r.cell_id ∧ 0 < r.overlaps_nucleus) →
              assignRow r = r.cell_id.toNat ∧ assignRow r ≠ BACKGROUND_CELL) ∧
            (¬(0 ≤ r.cell_id ∧ 0 < r.overlaps_nucleus) →
              assignRow r = BACKGROUND_CELL)) :=
  ⟨by decide, claim_C2_initial_assignment_rule none 1 wRows (by decide)⟩

/-- C8 (as amended): rows below the quality threshold are excluded
without error and contribute nothing to any output of
`read_transcripts_csv` (the outputs on the full row list coincide with
the outputs on the kept rows alone), and every row with
`qv >= min_qv` is retained, contributing exactly one transcript. -/
theorem claim_C8_quality_filter (z_column : Option String) (min_qv : ℚ)
    (rows : List Row) :
    read_transcripts_csv z_column min_qv rows =
        read_transcripts_csv z_column min_qv (keptRows min_qv rows) ∧
      (read_transcripts_csv z_column min_qv rows).transcripts.length =
        (keptRows min_qv rows).length := by
  constructor
  · rw [read_csv_fields, read_csv_fields]
    have hk : keptRows min_qv (keptRows min_qv rows) = keptRows min_qv rows :=
      List.filter_eq_self.mpr (fun r hr => by simpa using (mem_keptRows.mp hr).2)
    rw [hk]
  · rw [read_csv_fields]
    dsimp only
    rw [buildTs_length]

/-- C8 counterexample for the "counted separately" clause: no function of
the reader's outputs recovers the number of quality-excluded rows — the
empty input and a single below-threshold row produce identical outputs
but different excluded counts (the code keeps no such counter). -/
theorem claim_C8_no_excluded_count :
    ¬ ∃ f : ReadResult → ℕ,
        ∀ rows : List Row, f (read_transcripts_csv none 1 rows) = countExcluded 1 rows := by
  rintro ⟨f, hf⟩
  have h0 := hf []
  have h1 := hf [lowRow]
  have heq : read_transcripts_csv none 1 [lowRow] = read_transcripts_csv none 1 [] := by
    decide
  rw [heq] at h1
  exact absurd (h0.symm.trans h1) (by decide)

/-- C9: gene ids are dense in first-seen order: the transcript-name list
is the first-seen deduplication of the retained rows' names, contains no
duplicates, and each retained transcript's `gene` field indexes its
row's name in that list. -/
theorem claim_C9_dense_gene_ids (z_column : Option String) (min_qv : ℚ)
    (rows : List Row) :
    (read_transcripts_csv z_column min_qv rows).transcript_names.Nodup ∧
      (read_transcripts_csv z_column min_qv rows).transcript_names =
        firstSeen [] ((keptRows min_qv rows).map Row.name) ∧
      ∀ i, i < (read_transcripts_csv z_column min_qv rows).transcripts.length →
        ((read_transcripts_csv z_column min_qv rows).transcripts.getD i
              dTranscript).gene <
            (read_transcripts_csv z_column min_qv rows).transcript_names.length ∧
          (read_transcripts_csv z_column min_qv rows).transcript_names.getD
              (((read_transcripts_csv z_column min_qv rows).transcripts.getD i
                dTranscript).gene) "" =
            ((keptRows min_qv rows).getD i dRow).name ∧
          List.indexOf ((keptRows min_qv rows).getD i dRow).name
              (read_transcripts_csv z_column min_qv rows).transcript_names =
            ((read_transcripts_csv z_column min_qv rows).transcripts.getD i
              dTranscript).gene := by
  rw [read_csv_fields]
  dsimp only
  refine ⟨firstSeen_nodup _ [] List.nodup_nil, rfl, ?_⟩
  intro i hi
  rw [buildTs_length] at hi
  exact buildTs_gene_spec z_column.isSome (keptRows min_qv rows) [] List.nodup_nil i hi

/-- Witness instantiating C9 at a concrete input (two retained rows, one
filtered row, duplicate name first retained). -/
theorem claim_C9_dense_gene_ids_witness :
    (read_transcripts_csv none 1 wRows).transcript_names.Nodup ∧
      (read_transcripts_csv none 1 wRows).transcript_names =
        firstSeen [] ((keptRows 1 wRows).map Row.name) ∧
      ∀ i, i < (read_transcripts_csv none 1 wRows).transcripts.length →
        ((read_transcripts_csv none 1 wRows).transcripts.getD i dTranscript).gene <
            (read_transcripts_csv none 1 wRows).transcript_names.length ∧
          (read_transcripts_csv none 1 wRows).transcript_names.getD
              (((read_transcripts_csv none 1 wRows).transcripts.getD i
                dTranscript).gene) "" =
            ((keptRows 1 wRows).getD i dRow).name ∧
          List.indexOf ((keptRows 1 wRows).getD i dRow).name
              (read_transcripts_csv none 1 wRows).transcript_names =
            ((read_transcripts_csv none 1 wRows).transcripts.getD i dTranscript).gene :=
  claim_C9_dense_gene_ids none 1 wRows

/-- C3 (code-bug evidence): for a fully background input,
`postprocess_cell_assignments` returns an empty population vector, and
`main`'s `ncells = init_cell_population.len() - 1` underflows (modelled
`none`: a debug-build panic / release-build wrap to `usize::MAX`)
instead of yielding `ncells = 0` and running to an empty count table. -/
theorem claim_C3_all_background_aborts :
    postprocess_cell_assignments [BACKGROUND_CELL, BACKGROUND_CELL] = [] ∧
      ncellsMain (postprocess_cell_assignments [BACKGROUND_CELL, BACKGROUND_CELL]) =
        none := by
  decide

/-- C4 counterexample: for the dense assignment list `[0]` (so `k = 1`),
the `ncells` computed by `main` is `some 0`, not `some 1 = some k`. -/
theorem claim_C4_counterexample :
    denseAssignments 1 [0] ∧
      ncellsMain (postprocess_cell_assignments [0]) = some 0 ∧
      (some 0 : Option ℕ) ≠ some 1 :=
  ⟨dense_one_zero, by decide, by decide⟩

/-- C4 (as amended): when the non-background initial ids are exactly
`0..k-1` with `k ≥ 1`, the `ncells` value `main` computes is `k - 1`
(`init_cell_population.len() - 1`; the code treats cell ids as 1-based,
reserving one), and that single value is passed unchanged to every stage
invocation of the whole run — it is never increased or decreased. -/
theorem claim_C4_ncells_fixed (k : ℕ) (assigns : List ℕ) (hk : 0 < k)
    (hd : denseAssignments k assigns) :
    ncellsMain (postprocess_cell_assignments assigns) = some (k - 1) ∧
      ∀ call ∈ mainStageInvocations assigns, call.2 = some (k - 1) := by
  have hlen : (postprocess_cell_assignments assigns).length = k := by
    rw [postprocess_length, ncellsOf_of_dense hk hd]
  have hnc : ncellsMain (postprocess_cell_assignments assigns) = some (k - 1) := by
    unfold ncellsMain
    rw [hlen, if_neg (by omega)]
  refine ⟨hnc, ?_⟩
  intro call hcall
  obtain ⟨st, hst, rfl⟩ := List.mem_map.mp hcall
  exact hnc

/-- Witness for the amended C4 at `k = 1`, assignments `[0]`. -/
theorem claim_C4_ncells_fixed_witness :
    (0 < 1 ∧ denseAssignments 1 [0]) ∧
      (ncellsMain (postprocess_cell_assignments [0]) = some 0 ∧
        ∀ call ∈ mainStageInvocations [0], call.2 = some 0) :=
  ⟨⟨by decide, dense_one_zero⟩, claim_C4_ncells_fixed 1 [0] (by decide) dense_one_zero⟩

/-- C5: for positive `ncells`, `xspan`, `yspan` and positive initial
chunk size, the chunk-size search loop of `main` terminates (some
iterate falsifies the loop guard), the chunk size is non-decreasing
across iterations, and any exit state satisfies
`ncells / nchunks ≥ min_cells_per_chunk`. -/
theorem claim_C5_chunk_search (ncells : ℕ) (xspan yspan c0 : ℝ)
    (hn : 0 < ncells) (hx : 0 < xspan) (hy : 0 < yspan) (hc : 0 < c0) :
    (∀ m n : ℕ, m ≤ n → chunkIter c0 m ≤ chunkIter c0 n) ∧
      (∃ n, ¬ chunkLoopCond ncells xspan yspan (chunkIter c0 n)) ∧
      ∀ c : ℝ, ¬ chunkLoopCond ncells xspan yspan c →
        min_cells_per_chunk ncells ≤ (ncells : ℝ) / (nchunks c xspan yspan : ℝ) := by
  have hcast : (0 : ℝ) < ncells := by exact_mod_cast hn
  exact ⟨fun m n hmn => chunkIter_mono hc hmn, chunk_search_terminates hx hy hc,
    fun c hcond => not_lt.mp hcond⟩

/-- Witness for C5 at `ncells = 1`, unit spans, unit initial chunk
size. -/
theorem claim_C5_chunk_search_witness :
    (0 < 1 ∧ (0 : ℝ) < 1 ∧ (0 : ℝ) < 1 ∧ (0 : ℝ) < 1) ∧
      ((∀ m n : ℕ, m ≤ n → chunkIter 1 m ≤ chunkIter 1 n) ∧
        (∃ n, ¬ chunkLoopCond 1 1 1 (chunkIter 1 n)) ∧
        ∀ c : ℝ, ¬ chunkLoopCond 1 1 1 c →
          min_cells_per_chunk 1 ≤ ((1 : ℕ) : ℝ) / (nchunks c 1 1 : ℝ)) :=
  ⟨⟨by decide, by norm_num, by norm_num, by norm_num⟩,
    claim_C5_chunk_search 1 1 1 1 (by decide) (by norm_num) (by norm_num) (by norm_num)⟩

/-- C6: in `run_hexbin_sampler`, every outer iteration performs exactly
`k` local-move calls, then one global resampling, one log-likelihood
evaluation and one stats reset; one extra global resampling happens
before the loop.  Numbering global-parameter generations by how many
`sample_global_params` calls produced them, iteration `i`'s local moves
all read generation `i + 1` — the one produced at the end of iteration
`i - 1` (the pre-loop call for `i = 0`) — so no global resampling
intervenes between local steps of one iteration. -/
theorem claim_C6_iteration_structure (niter k : ℕ) :
    (run_hexbin_sampler niter k).localReads =
        (List.range niter).flatMap (fun i => List.replicate k (i, i + 1)) ∧
      (run_hexbin_sampler niter k).version = niter + 1 ∧
      (run_hexbin_sampler niter k).loglikCount = niter ∧
      (run_hexbin_sampler niter k).resetCount = niter ∧
      (∀ i, i < niter →
        ((run_hexbin_sampler niter k).localReads.filter
          (fun p => p.1 == i)).length = k) ∧
      ∀ p ∈ (run_hexbin_sampler niter k).localReads, p.2 = p.1 + 1 := by
  rw [run_hexbin_spec]
  dsimp only
  refine ⟨rfl, rfl, rfl, rfl, ?_, ?_⟩
  · intro i hi
    rw [reads_filter_eq k niter i hi]
    simp
  · intro p hp
    exact (reads_mem_spec hp).1

/-- Witness instantiating C6 at `niter = 2`, `k = 3`. -/
theorem claim_C6_iteration_structure_witness :
    (run_hexbin_sampler 2 3).localReads =
        (List.range 2).flatMap (fun i => List.replicate 3 (i, i + 1)) ∧
      (run_hexbin_sampler 2 3).version = 2 + 1 ∧
      (run_hexbin_sampler 2 3).loglikCount = 2 ∧
      (run_hexbin_sampler 2 3).resetCount = 2 ∧
      (∀ i, i < 2 →
        ((run_hexbin_sampler 2 3).localReads.filter (fun p => p.1 == i)).length = 3) ∧
      ∀ p ∈ (run_hexbin_sampler 2 3).localReads, p.2 = p.1 + 1 :=
  claim_C6_iteration_structure 2 3

/-- C7 counterexample: the stage schedule `main` runs does not depend on
the configuration, and with the default configuration
(`niter = 100000`) the run executes 800 outer iterations, not the
configured budget — `args.niter` is parsed but never used. -/
theorem claim_C7_counterexample :
    mainSchedule { niter := 1 } = mainSchedule { niter := 2 } ∧
      mainTotalOuterIterations { niter := 100000 } = 800 ∧
      (800 : ℕ) ≠ 100000 :=
  ⟨rfl, by decide, by decide⟩

/-- C7 (as amended): the stage schedule is the hardcoded constant
`[(5.0, 200), (2.5, 200), (1.0, 200), (0.5, 200)]` (a `TODO` in the
source notes it should become configurable), and every configuration —
whatever its `niter` — yields the same 800 total outer iterations. -/
theorem claim_C7_schedule_hardcoded (a : Args) :
    mainSchedule a = [(5, 200), (5 / 2, 200), (1, 200), (1 / 2, 200)] ∧
      mainTotalOuterIterations a = 800 ∧
      ∀ b : Args, mainTotalOuterIterations a = mainTotalOuterIterations b :=
  ⟨rfl, rfl, fun _ => rfl⟩

/-- C10 counterexample: for the two-transcript input `exTs` (x span 2)
with `mean_nucleus_area = 1/4` (bin size 1), the transcript at the
maximal x coordinate gets `xbin = 2 = xbins`: the write
`occupied[[xbin, ybin]]` is out of bounds and `estimate_full_area`
panics, refuting "the write is always in bounds". -/
theorem claim_C10_counterexample :
    ¬ binIndicesInBounds exTs (1 / 4) ∧ estimate_full_area exTs (1 / 4) = none := by
  have hspan : coordinate_span exTs = ⟨0, 2, 0, 1 / 2, 0, 0⟩ := by
    simp [coordinate_span, exTs, spanStep, f32_max, min_def, max_def]
    norm_num
  have hsqrt : Real.sqrt (1 / 4 : ℝ) = 1 / 2 := by
    rw [show (1 / 4 : ℝ) = (1 / 2) ^ 2 by norm_num, Real.sqrt_sq (by norm_num)]
  have hbin : binsizeOf (1 / 4 : ℝ) = 1 := by
    rw [binsizeOf, hsqrt]
    norm_num
  have hxbins : xbinsOf exTs (1 / 4) = 2 := by
    unfold xbinsOf
    rw [hspan, hbin]
    norm_num
    rfl
  have hxb : xbinOf exTs (1 / 4) ⟨2, 1 / 2, 0, 0⟩ = 2 := by
    unfold xbinOf
    rw [hspan, hbin]
    norm_num
    rfl
  have hnb : ¬ binIndicesInBounds exTs (1 / 4) := by
    intro h
    have hmem : (⟨2, 1 / 2, 0, 0⟩ : Transcript) ∈ exTs := by simp [exTs]
    have hlt := (h _ hmem).1
    rw [hxb, hxbins] at hlt
    exact lt_irrefl 2 hlt
  refine ⟨hnb, ?_⟩
  unfold estimate_full_area
  rw [if_neg hnb]

/-- C10 (as amended): for positive `mean_nucleus_area`, every
transcript's bin indices satisfy `xbin ≤ xbins` and `ybin ≤ ybins`, and
the strict in-bounds inequality holds on each axis whenever the
transcript is not at the maximal coordinate or the span is not an exact
integer multiple of the bin size — the out-of-bounds write (and panic)
is possible exactly at that boundary case, as the counterexample
shows. -/
theorem claim_C10_bin_bounds (ts : List Transcript) (area : ℝ) (t : Transcript)
    (harea : 0 < area) (ht : t ∈ ts) :
    xbinOf ts area t ≤ xbinsOf ts area ∧
      ybinOf ts area t ≤ ybinsOf ts area ∧
      (((t.x : ℝ) < ((coordinate_span ts).xmax : ℝ) ∨
          ∀ m : ℤ, (((coordinate_span ts).xmax - (coordinate_span ts).xmin : ℚ) : ℝ) /
              binsizeOf area ≠ (m : ℝ)) →
        xbinOf ts area t < xbinsOf ts area) ∧
      (((t.y : ℝ) < ((coordinate_span ts).ymax : ℝ) ∨
          ∀ m : ℤ, (((coordinate_span ts).ymax - (coordinate_span ts).ymin : ℚ) : ℝ) /
              binsizeOf area ≠ (m : ℝ)) →
        ybinOf ts area t < ybinsOf ts area) := by
  obtain ⟨hx1, hx2, hy1, hy2⟩ := span_bounds ht
  have hb : 0 < binsizeOf area := by
    unfold binsizeOf
    have := Real.sqrt_pos.mpr harea
    linarith
  have hdx0 : (0 : ℝ) ≤ ((t.x - (coordinate_span ts).xmin : ℚ) : ℝ) / binsizeOf area := by
    apply div_nonneg _ hb.le
    have h := (Rat.cast_le (K := ℝ)).mpr hx1
    push_cast at h ⊢
    linarith
  have hdxD : ((t.x - (coordinate_span ts).xmin : ℚ) : ℝ) / binsizeOf area ≤
      (((coordinate_span ts).xmax - (coordinate_span ts).xmin : ℚ) : ℝ) /
        binsizeOf area := by
    refine (div_le_div_iff_of_pos_right hb).mpr ?_
    exact_mod_cast sub_le_sub_right hx2 _
  have hdy0 : (0 : ℝ) ≤ ((t.y - (coordinate_span ts).ymin : ℚ) : ℝ) / binsizeOf area := by
    apply div_nonneg _ hb.le
    have h := (Rat.cast_le (K := ℝ)).mpr hy1
    push_cast at h ⊢
    linarith
  have hdyD : ((t.y - (coordinate_span ts).ymin : ℚ) : ℝ) / binsizeOf area ≤
      (((coordinate_span ts).ymax - (coordinate_span ts).ymin : ℚ) : ℝ) /
        binsizeOf area := by
    refine (div_le_div_iff_of_pos_right hb).mpr ?_
    exact_mod_cast sub_le_sub_right hy2 _
  refine ⟨bin_toNat_le hdxD, bin_toNat_le hdyD, ?_, ?_⟩
  · rintro (hlt | hni)
    · refine bin_toNat_lt_of_lt hdx0 ?_
      refine (div_lt_div_iff_of_pos_right hb).mpr ?_
      push_cast at hlt ⊢
      linarith
    · exact bin_toNat_lt_of_not_int hdx0 hdxD hni
  · rintro (hlt | hni)
    · refine bin_toNat_lt_of_lt hdy0 ?_
      refine (div_lt_div_iff_of_pos_right hb).mpr ?_
      push_cast at hlt ⊢
      linarith
    · exact bin_toNat_lt_of_not_int hdy0 hdyD hni

/-- Witness for the amended C10 at the first transcript of `exTs` with
`mean_nucleus_area = 1/4`. -/
theorem claim_C10_bin_bounds_witness :
    ((0 : ℝ) < 1 / 4 ∧ (⟨0, 0, 0, 0⟩ : Transcript) ∈ exTs) ∧
      (xbinOf exTs (1 / 4) ⟨0, 0, 0, 0⟩ ≤ xbinsOf exTs (1 / 4) ∧
        ybinOf exTs (1 / 4) ⟨0, 0, 0, 0⟩ ≤ ybinsOf exTs (1 / 4) ∧
        ((((0 : ℚ) : ℝ) < ((coordinate_span exTs).xmax : ℝ) ∨
            ∀ m : ℤ,
              (((coordinate_span exTs).xmax - (coordinate_span exTs).xmin : ℚ) : ℝ) /
                  binsizeOf (1 / 4) ≠ (m : ℝ)) →
          xbinOf exTs (1 / 4) ⟨0, 0, 0, 0⟩ < xbinsOf exTs (1 / 4)) ∧
        ((((0 : ℚ) : ℝ) < ((coordinate_span exTs).ymax : ℝ) ∨
            ∀ m : ℤ,
              (((coordinate_span exTs).ymax - (coordinate_span exTs).ymin : ℚ) : ℝ) /
                  binsizeOf (1 / 4) ≠ (m : ℝ)) →
          ybinOf exTs (1 / 4) ⟨0, 0, 0, 0⟩ < ybinsOf exTs (1 / 4))) :=
  ⟨⟨by norm_num, by simp [exTs]⟩,
    claim_C10_bin_bounds exTs (1 / 4) ⟨0, 0, 0, 0⟩ (by norm_num) (by simp [exTs])⟩

end Proseg
